import Mathlib

/-!
Verification of the step-by-step tutorial core: a shallow embedding of the
config parser / step-graph builder, the git diff synthesizer, the tutorial
orchestrator and the progress tracker, together with proofs of the claimed
properties.

JavaScript `Map` objects are embedded as insertion-ordered association
lists with unique keys (a `Map` can hold each key at most once):
`mapSet` replaces the value in place when the key is present and appends a
fresh entry otherwise, matching `Map.prototype.set`; `mapFind` is
`Map.prototype.get`.
-/

namespace Tutorial

/-- Insertion-ordered association-list lookup (`Map.prototype.get`). -/
def mapFind (k : String) : List (String × α) → Option α
  | [] => none
  | (k', v) :: rest => if k' = k then some v else mapFind k rest

/-- `Map.prototype.set`: replace in place when present, append otherwise. -/
def mapSet : List (String × α) → String → α → List (String × α)
  | [], k, v => [(k, v)]
  | (k', v') :: rest, k, v =>
      if k' = k then (k', v) :: rest else (k', v') :: mapSet rest k v

@[simp] theorem mapFind_nil (k : String) : mapFind k ([] : List (String × α)) = none := rfl

@[simp] theorem mapFind_cons (k k' : String) (v : α) (rest : List (String × α)) :
    mapFind k ((k', v) :: rest) = if k' = k then some v else mapFind k rest := rfl

@[simp] theorem mapFind_mapSet_self {m : List (String × α)} {k : String} {v : α} :
    mapFind k (mapSet m k v) = some v := by
  induction m with
  | nil => simp [mapSet, mapFind]
  | cons e rest ih =>
    obtain ⟨k', v'⟩ := e
    by_cases hk : k' = k
    · simp [mapSet, mapFind, hk]
    · simp [mapSet, mapFind, hk, ih]

theorem mapFind_mapSet_ne {m : List (String × α)} {k k' : String} {v : α}
    (h : k' ≠ k) : mapFind k' (mapSet m k v) = mapFind k' m := by
  induction m with
  | nil =>
    simp only [mapSet, mapFind_cons, mapFind_nil]
    rw [if_neg (fun hh => h hh.symm)]
  | cons e rest ih =>
    obtain ⟨k₀, v₀⟩ := e
    by_cases hk : k₀ = k
    · subst hk
      unfold mapSet
      rw [if_pos rfl, mapFind_cons, mapFind_cons,
        if_neg (fun hh => h hh.symm), if_neg (fun hh => h hh.symm)]
    · simp only [mapSet, hk, if_false, mapFind_cons]
      by_cases hk' : k₀ = k'
      · simp [hk']
      · simp [hk', ih]

/-- Keys of a map after `mapSet`: unchanged when present, appended otherwise. -/
theorem keys_mapSet (m : List (String × α)) (k : String) (v : α) :
    (mapSet m k v).map Prod.fst =
      if (mapFind k m).isSome then m.map Prod.fst else m.map Prod.fst ++ [k] := by
  induction m with
  | nil => simp [mapSet, mapFind]
  | cons e rest ih =>
    obtain ⟨k₀, v₀⟩ := e
    by_cases hk : k₀ = k
    · simp [mapSet, mapFind, hk]
    · simp only [mapSet, hk, if_false, List.map_cons, mapFind_cons]
      rw [ih]
      by_cases hs : (mapFind k rest).isSome <;> simp [hs]

/-! ## Progress tracker (src/services/progressTracker.ts)

`Date.now()` is passed in as an explicit `now` parameter; the
`saveToStorage` side effect is recorded as a counter of persistence
writes. -/

/-- `TutorialProgress` from types.ts. -/
structure TutorialProgress where
  tutorialId : String
  currentStepId : Option String
  completedSteps : List String
  lastAccessTime : Nat
deriving DecidableEq, Repr

/-- The `ProgressTracker`'s mutable state: the `progressCache` map plus a
count of `saveToStorage` calls. -/
structure TrackerState where
  progressCache : List (String × TutorialProgress)
  saveCount : Nat
deriving DecidableEq, Repr

/-- `ProgressTracker.getProgress`: return the cached record, or lazily
create `{tutorialId, currentStepId: null, completedSteps: [], lastAccessTime: Date.now()}`
and register it. -/
def getProgress (now : Nat) (tutorialId : String) (s : TrackerState) :
    TutorialProgress × TrackerState :=
  match mapFind tutorialId s.progressCache with
  | some cached => (cached, s)
  | none =>
    let newProgress : TutorialProgress :=
      { tutorialId := tutorialId, currentStepId := none
        completedSteps := [], lastAccessTime := now }
    (newProgress, { s with progressCache := mapSet s.progressCache tutorialId newProgress })

/-- `ProgressTracker.markStepCompleted`: if the step id is not yet in
`completedSteps`, push it, refresh `lastAccessTime` and save; otherwise do
nothing. -/
def markStepCompleted (now : Nat) (tutorialId stepId : String) (s : TrackerState) :
    TrackerState :=
  let progress := (getProgress now tutorialId s).1
  let s1 := (getProgress now tutorialId s).2
  if stepId ∈ progress.completedSteps then s1
  else
    let progress' := { progress with
      completedSteps := progress.completedSteps ++ [stepId], lastAccessTime := now }
    { s1 with
      progressCache := mapSet s1.progressCache tutorialId progress'
      saveCount := s1.saveCount + 1 }

/-- `ProgressTracker.setCurrentStep`: if a different step was previously
current (JS truthiness: non-null and non-empty), mark it completed first;
then set `currentStepId`, refresh `lastAccessTime` and save. -/
def setCurrentStep (now : Nat) (tutorialId stepId : String) (s : TrackerState) :
    TrackerState :=
  let progress := (getProgress now tutorialId s).1
  let s1 := (getProgress now tutorialId s).2
  let s2 :=
    match progress.currentStepId with
    | some prev =>
        if prev ≠ "" ∧ prev ≠ stepId then markStepCompleted now tutorialId prev s1 else s1
    | none => s1
  let progress2 := (mapFind tutorialId s2.progressCache).getD progress
  { s2 with
    progressCache := mapSet s2.progressCache tutorialId
      { progress2 with currentStepId := some stepId, lastAccessTime := now }
    saveCount := s2.saveCount + 1 }

/-- Claim C4, as stated, is false: when the step id is already present,
`markStepCompleted` returns without touching `lastAccessTime` (the update
sits inside the `if` that guards the insertion).  Concretely, with a record
whose `lastAccessTime` is 5, calling `markStepCompleted` at time 10 with an
already-completed step leaves the record — `lastAccessTime` included —
exactly as it was, and performs no persistence write. -/
theorem markStepCompleted_no_time_refresh :
    (markStepCompleted 10 "t1" "s1"
        { progressCache := [("t1",
            { tutorialId := "t1", currentStepId := none
              completedSteps := ["s1"], lastAccessTime := 5 })]
          saveCount := 0 }) =
      { progressCache := [("t1",
          { tutorialId := "t1", currentStepId := none
            completedSteps := ["s1"], lastAccessTime := 5 })]
        saveCount := 0 } ∧
    (mapFind "t1" (markStepCompleted 10 "t1" "s1"
        { progressCache := [("t1",
            { tutorialId := "t1", currentStepId := none
              completedSteps := ["s1"], lastAccessTime := 5 })]
          saveCount := 0 }).progressCache).map (fun p => p.lastAccessTime) ≠ some 10 := by
  constructor
  · rfl
  · decide

/-- C4 (amended): `markStepCompleted` is idempotent on the contents of
`completedSteps`; when the id is already present the whole tracker state —
`lastAccessTime` included — is left unchanged and no persistence write
happens; only when the set actually changes is the id appended,
`lastAccessTime` refreshed, and a single persistence write triggered. -/
theorem markStepCompleted_spec (now : Nat) (tutorialId stepId : String)
    (s : TrackerState) (p : TutorialProgress)
    (h : mapFind tutorialId s.progressCache = some p) :
    (stepId ∈ p.completedSteps → markStepCompleted now tutorialId stepId s = s) ∧
    (stepId ∉ p.completedSteps →
      mapFind tutorialId (markStepCompleted now tutorialId stepId s).progressCache =
        some { p with completedSteps := p.completedSteps ++ [stepId], lastAccessTime := now } ∧
      (∀ k, k ≠ tutorialId →
        mapFind k (markStepCompleted now tutorialId stepId s).progressCache =
          mapFind k s.progressCache) ∧
      (markStepCompleted now tutorialId stepId s).saveCount = s.saveCount + 1) := by
  have hget1 : (getProgress now tutorialId s).1 = p := by simp [getProgress, h]
  have hget2 : (getProgress now tutorialId s).2 = s := by simp [getProgress, h]
  constructor
  · intro hmem
    simp only [markStepCompleted, hget1, hget2, if_pos hmem]
  · intro hmem
    simp only [markStepCompleted, hget1, hget2, if_neg hmem]
    refine ⟨mapFind_mapSet_self, fun k hk => mapFind_mapSet_ne hk, trivial⟩

/-- Witness for `markStepCompleted_spec` at a concrete tracker state. -/
theorem markStepCompleted_spec_witness :
    mapFind "t1" [("t1",
        ({ tutorialId := "t1", currentStepId := none
           completedSteps := ["s1"], lastAccessTime := 5 } : TutorialProgress))] =
      some { tutorialId := "t1", currentStepId := none
             completedSteps := ["s1"], lastAccessTime := 5 } ∧
    ("s1" ∈ ["s1"] ∧
      markStepCompleted 10 "t1" "s1"
          { progressCache := [("t1",
              { tutorialId := "t1", currentStepId := none
                completedSteps := ["s1"], lastAccessTime := 5 })]
            saveCount := 0 } =
        { progressCache := [("t1",
            { tutorialId := "t1", currentStepId := none
              completedSteps := ["s1"], lastAccessTime := 5 })]
          saveCount := 0 }) :=
  ⟨by decide,
   by decide,
   (markStepCompleted_spec 10 "t1" "s1"
      { progressCache := [("t1",
          { tutorialId := "t1", currentStepId := none
            completedSteps := ["s1"], lastAccessTime := 5 })]
        saveCount := 0 }
      { tutorialId := "t1", currentStepId := none
        completedSteps := ["s1"], lastAccessTime := 5 }
      (by decide)).1 (by decide)⟩

/-- C10: calling `setCurrentStep` with the id that is already the record's
`currentStepId` leaves `completedSteps` unchanged (no auto-completion of the
re-selected step): the stored record keeps every field except
`lastAccessTime`, which is refreshed; other tutorials' records are
untouched, and exactly one persistence write happens. -/
theorem setCurrentStep_same_id (now : Nat) (tutorialId stepId : String)
    (s : TrackerState) (p : TutorialProgress)
    (h : mapFind tutorialId s.progressCache = some p)
    (hc : p.currentStepId = some stepId) :
    mapFind tutorialId (setCurrentStep now tutorialId stepId s).progressCache =
      some { tutorialId := p.tutorialId, currentStepId := p.currentStepId
             completedSteps := p.completedSteps, lastAccessTime := now } ∧
    (∀ k, k ≠ tutorialId →
      mapFind k (setCurrentStep now tutorialId stepId s).progressCache =
        mapFind k s.progressCache) ∧
    (setCurrentStep now tutorialId stepId s).saveCount = s.saveCount + 1 := by
  have hget1 : (getProgress now tutorialId s).1 = p := by simp [getProgress, h]
  have hget2 : (getProgress now tutorialId s).2 = s := by simp [getProgress, h]
  have hcond : ¬(stepId ≠ "" ∧ stepId ≠ stepId) := by simp
  simp only [setCurrentStep, hget1, hget2, hc, if_neg hcond, h, Option.getD_some]
  refine ⟨?_, fun k hk => mapFind_mapSet_ne hk, trivial⟩
  rw [mapFind_mapSet_self]

/-- Witness for `setCurrentStep_same_id` at a concrete tracker state. -/
theorem setCurrentStep_same_id_witness :
    mapFind "t1" [("t1",
        ({ tutorialId := "t1", currentStepId := some "s2"
           completedSteps := ["s1"], lastAccessTime := 5 } : TutorialProgress))] =
      some { tutorialId := "t1", currentStepId := some "s2"
             completedSteps := ["s1"], lastAccessTime := 5 } ∧
    mapFind "t1" (setCurrentStep 10 "t1" "s2"
        { progressCache := [("t1",
            { tutorialId := "t1", currentStepId := some "s2"
              completedSteps := ["s1"], lastAccessTime := 5 })]
          saveCount := 3 }).progressCache =
      some { tutorialId := "t1", currentStepId := some "s2"
             completedSteps := ["s1"], lastAccessTime := 10 } :=
  ⟨by decide,
   (setCurrentStep_same_id 10 "t1" "s2"
      { progressCache := [("t1",
          { tutorialId := "t1", currentStepId := some "s2"
            completedSteps := ["s1"], lastAccessTime := 5 })]
        saveCount := 3 }
      { tutorialId := "t1", currentStepId := some "s2"
        completedSteps := ["s1"], lastAccessTime := 5 }
      (by decide) (by decide)).1⟩

/-! ## Diff synthesizer (src/services/gitService.ts)

`getDiff` shells out to git for the per-file summary (`diffSummary`) and
the unified-diff text (`diff`); the embedding takes those two results as
inputs and models the classification and parsing logic.  Diff text is
scanned as a list of lines, each a `List Char`; `String.data` converts the
input. -/

/-- Split a character list at every occurrence of a separator character,
like JavaScript `String.prototype.split` with a one-character separator
(so the empty input yields one empty piece). -/
def splitOnChar (c : Char) : List Char → List (List Char)
  | [] => [[]]
  | x :: xs =>
    let rest := splitOnChar c xs
    if x = c then [] :: rest
    else
      match rest with
      | [] => [[x]]
      | r :: rs => (x :: r) :: rs

/-- `DiffHunk` from types.ts. -/
structure DiffHunk where
  oldStart : Nat
  oldLines : Nat
  newStart : Nat
  newLines : Nat
  content : String
deriving DecidableEq, Repr

/-- Longest leading run of decimal digits, and the rest. -/
def takeDigits (l : List Char) : List Char × List Char :=
  (l.takeWhile Char.isDigit, l.dropWhile Char.isDigit)

/-- `parseInt(·, 10)` on a non-empty all-digit string. -/
def digitsToNat (ds : List Char) : Nat :=
  ds.foldl (fun n c => n * 10 + (c.toNat - 48)) 0

/-- The regex `/^@@ -(\d+),?(\d*) \+(\d+),?(\d*) @@/` from
`parseDiffOutput`: old start, optional old span, new start, optional new
span.  `\d+` and `\d*` are maximal-munch here (shortening a digit group can
never rescue a failed match, since the next required character is
non-numeric), so a deterministic scan is equivalent to the regex. -/
def matchHunkHeader (line : List Char) : Option (Nat × Option Nat × Nat × Option Nat) :=
  if ("@@ -".data).isPrefixOf line then
    let r1 := line.drop 4
    let p1 := takeDigits r1
    if p1.1 = [] then none
    else
      let r2 := if p1.2.head? = some ',' then p1.2.tail else p1.2
      let p2 := takeDigits r2
      if (" +".data).isPrefixOf p2.2 then
        let r3 := p2.2.drop 2
        let p3 := takeDigits r3
        if p3.1 = [] then none
        else
          let r4 := if p3.2.head? = some ',' then p3.2.tail else p3.2
          let p4 := takeDigits r4
          if (" @@".data).isPrefixOf p4.2 then
            some (digitsToNat p1.1,
                  if p2.1 = [] then none else some (digitsToNat p2.1),
                  digitsToNat p3.1,
                  if p4.1 = [] then none else some (digitsToNat p4.1))
          else none
      else none
  else none

/-- All decompositions `l = before ++ pat ++ after`, as `(before, after)`
pairs in order of the split position. -/
def splitsOn (pat : List Char) (l : List Char) : List (List Char × List Char) :=
  (List.range (l.length + 1)).filterMap (fun i =>
    if pat.isPrefixOf (l.drop i) then some (l.take i, (l.drop i).drop pat.length)
    else none)

/-- The regex `/^diff --git a\/(.+) b\/(.+)$/` from `parseDiffOutput`.
The greedy first group makes the engine split at the last occurrence of
`" b/"` that leaves both groups non-empty. -/
def matchFileHeader (line : List Char) : Option (List Char × List Char) :=
  if ("diff --git a/".data).isPrefixOf line then
    let rest := line.drop 13
    ((splitsOn " b/".data rest).filter (fun pr => pr.1 ≠ [] ∧ pr.2 ≠ [])).getLast?
  else none

/-- Does the line start with `+`, `-` or a space (a hunk content line)? -/
def isHunkLine (line : List Char) : Bool :=
  match line with
  | c :: _ => c = '+' || c = '-' || c = ' '
  | [] => false

/-- `hunkContent.join('\n')` from `parseDiffOutput`. -/
def joinContent (ls : List (List Char)) : String :=
  String.intercalate "\n" (ls.map String.mk)

/-- Append a finished hunk to the per-file list
(`if (!hunksMap.has(f)) hunksMap.set(f, []); hunksMap.get(f).push(h)`). -/
def pushHunk (m : List (String × List DiffHunk)) (f : String) (h : DiffHunk) :
    List (String × List DiffHunk) :=
  match mapFind f m with
  | some hs => mapSet m f (hs ++ [h])
  | none => mapSet m f [h]

/-- The scanner state of `parseDiffOutput`: current file, current open
hunk, the accumulated content lines of the open hunk, and the finished
hunks per file. -/
structure ScanState where
  currentFile : Option String
  currentHunk : Option DiffHunk
  hunkContent : List (List Char)
  hunksMap : List (String × List DiffHunk)

/-- Close the open hunk (if any) into the map under file `f`
(`currentHunk.content = hunkContent.join('\n'); hunksMap.get(f).push(...)`). -/
def flushInto (m : List (String × List DiffHunk)) (f : String)
    (ch : Option DiffHunk) (content : List (List Char)) : List (String × List DiffHunk) :=
  match ch with
  | some h => pushHunk m f { h with content := joinContent content }
  | none => m

/-- The `if (currentFile && currentHunk)` flush used at file headers and at
the end of input. -/
def flushAll (st : ScanState) : List (String × List DiffHunk) :=
  match st.currentFile with
  | some f => flushInto st.hunksMap f st.currentHunk st.hunkContent
  | none => st.hunksMap

/-- The line loop of `parseDiffOutput`: file headers and hunk headers flush
the open hunk; `+`/`-`/space lines are accumulated while a hunk is open;
at the end of input the last open hunk is flushed. -/
def scanLines : List (List Char) → ScanState → List (String × List DiffHunk)
  | [], st => flushAll st
  | line :: rest, st =>
    match matchFileHeader line with
    | some pr =>
      scanLines rest
        { currentFile := some (String.mk pr.2), currentHunk := none
          hunkContent := [], hunksMap := flushAll st }
    | none =>
      match matchHunkHeader line, st.currentFile with
      | some q, some f =>
        scanLines rest
          { currentFile := some f
            currentHunk := some
              { oldStart := q.1, oldLines := q.2.1.getD 1
                newStart := q.2.2.1, newLines := q.2.2.2.getD 1, content := "" }
            hunkContent := [line]
            hunksMap := flushInto st.hunksMap f st.currentHunk st.hunkContent }
      | _, _ =>
        if st.currentHunk.isSome && isHunkLine line then
          scanLines rest { st with hunkContent := st.hunkContent ++ [line] }
        else
          scanLines rest st

/-- `GitService.parseDiffOutput`: unified-diff text to per-file hunk lists. -/
def parseDiffOutput (diffOutput : String) : List (String × List DiffHunk) :=
  scanLines (splitOnChar '\n' diffOutput.data)
    { currentFile := none, currentHunk := none, hunkContent := [], hunksMap := [] }

/-- `FileDiff.status` values from types.ts. -/
inductive FileStatus where
  | added
  | modified
  | deleted
  | renamed
deriving DecidableEq, Repr

/-- One entry of simple-git's `DiffResult.files`; `insertions`/`deletions`
are `none` when the summary entry lacks those properties (binary files),
modelling the `'insertions' in file` checks. -/
structure DiffSummaryFile where
  file : String
  insertions : Option Nat
  deletions : Option Nat
deriving DecidableEq, Repr

/-- `FileDiff` from types.ts. -/
structure FileDiff where
  filePath : String
  status : FileStatus
  additions : Nat
  deletions : Nat
  hunks : List DiffHunk
deriving DecidableEq, Repr

/-- `filePath.includes(' => ')` — the rename arrow marker test. -/
def hasArrowMarker (s : String) : Bool :=
  (List.range (s.data.length + 1)).any (fun i => (" => ".data).isPrefixOf (s.data.drop i))

/-- The status classification of one summary file inside `GitService.getDiff`,
exactly as the source computes it: default `modified`; the insert/delete
test (with `!fromRef` required on the `added` branch); then the rename
arrow overrides; then the first-hunk `oldLines === 0` check overrides. -/
def classifyStatus (fromRef : String) (f : DiffSummaryFile)
    (hunksMap : List (String × List DiffHunk)) : FileStatus :=
  let s0 : FileStatus := .modified
  let s1 :=
    match f.insertions, f.deletions with
    | some ins, some del =>
      if ins > 0 ∧ del = 0 ∧ fromRef = "" then FileStatus.added
      else if del > 0 ∧ ins = 0 then FileStatus.deleted
      else s0
    | _, _ => s0
  let s2 := if hasArrowMarker f.file then FileStatus.renamed else s1
  match mapFind f.file hunksMap with
  | some hunks =>
    match hunks with
    | h0 :: _ => if h0.oldLines = 0 then FileStatus.added else s2
    | [] => s2
  | none => s2

/-- `GitService.getDiff`, given the outputs of the two git subprocess calls
(the summary list and the diff text): per-file `FileDiff` records. -/
def getDiff (fromRef : String) (files : List DiffSummaryFile) (diffOutput : String) :
    List FileDiff :=
  let hunksMap := parseDiffOutput diffOutput
  files.map (fun f =>
    { filePath := f.file
      status := classifyStatus fromRef f hunksMap
      additions := f.insertions.getD 0
      deletions := f.deletions.getD 0
      hunks := (mapFind f.file hunksMap).getD [] })

/-- Does the file's first parsed hunk have `oldLines == 0`? -/
def firstHunkOldZero (hunksMap : List (String × List DiffHunk)) (path : String) : Bool :=
  match mapFind path hunksMap with
  | some (h0 :: _) => h0.oldLines = 0
  | _ => false

/-- The status classification exactly as claim C1 words it, for comparison
with the source's `classifyStatus`: (1) rename arrow → renamed; (2) in the
empty-tree comparison, first hunk with `oldLines == 0` → added; (3)
insertions present with no deletions → added; (4) deletions present with no
insertions → deleted; (5) otherwise modified. -/
def claimedStatusOrder (fromRef : String) (f : DiffSummaryFile)
    (hunksMap : List (String × List DiffHunk)) : FileStatus :=
  if hasArrowMarker f.file then .renamed
  else if fromRef = "" ∧ firstHunkOldZero hunksMap f.file then .added
  else
    match f.insertions, f.deletions with
    | some ins, some del =>
      if ins > 0 ∧ del = 0 then .added
      else if del > 0 ∧ ins = 0 then .deleted
      else .modified
    | _, _ => .modified

/-- Claim C1, as stated, fails on the code: for a non-empty `fromRef` and a
summary file with 2 insertions and 0 deletions (and no hunks parsed for
it), the claimed rule order yields `added` (rule 3), but `getDiff` yields
`modified`, because the source attaches the `!fromRef` test to the
insertions-only branch. -/
theorem getDiff_status_order_counterexample :
    (getDiff "r1" [{ file := "a.txt", insertions := some 2, deletions := some 0 }] "").map
        (fun fd => fd.status) = [FileStatus.modified] ∧
    claimedStatusOrder "r1" { file := "a.txt", insertions := some 2, deletions := some 0 }
        (parseDiffOutput "") = FileStatus.added :=
  ⟨by decide, by decide⟩

/-- The classification order the code actually implements, highest priority
first: a first parsed hunk with `oldLines == 0` → added (in every
comparison, and overriding the rename arrow); else the rename arrow →
renamed; else insertions with no deletions, and only in the empty-tree
comparison → added; else deletions with no insertions → deleted; else
modified. -/
def actualStatusOrder (fromRef : String) (f : DiffSummaryFile)
    (hunksMap : List (String × List DiffHunk)) : FileStatus :=
  if firstHunkOldZero hunksMap f.file then .added
  else if hasArrowMarker f.file then .renamed
  else
    match f.insertions, f.deletions with
    | some ins, some del =>
      if ins > 0 ∧ del = 0 ∧ fromRef = "" then .added
      else if del > 0 ∧ ins = 0 then .deleted
      else .modified
    | _, _ => .modified

/-- The source's sequence of overriding assignments equals the
priority-ordered rule list of `actualStatusOrder`. -/
theorem classifyStatus_eq_actualOrder (fromRef : String) (f : DiffSummaryFile)
    (hunksMap : List (String × List DiffHunk)) :
    classifyStatus fromRef f hunksMap = actualStatusOrder fromRef f hunksMap := by
  unfold classifyStatus actualStatusOrder firstHunkOldZero
  cases hmf : mapFind f.file hunksMap with
  | none =>
    cases f.insertions <;> cases f.deletions <;> split_ifs <;> simp_all
  | some hunks =>
    cases hunks with
    | nil => cases f.insertions <;> cases f.deletions <;> split_ifs <;> simp_all
    | cons h0 hs => cases f.insertions <;> cases f.deletions <;> split_ifs <;> simp_all

/-- C1 (amended): every `FileDiff` produced by `getDiff` carries the status
given by the code's priority order (`actualStatusOrder`): first-hunk
`oldLines == 0` → added (any comparison, overriding rename); else rename
arrow → renamed; else insertions-only **in the empty-tree comparison** →
added; else deletions-only → deleted; else modified. -/
theorem getDiff_status_classification (fromRef : String) (files : List DiffSummaryFile)
    (diffOutput : String) :
    (getDiff fromRef files diffOutput).map (fun fd => fd.status) =
      files.map (fun f => actualStatusOrder fromRef f (parseDiffOutput diffOutput)) := by
  unfold getDiff
  simp only [List.map_map]
  exact List.map_congr_left (fun f _ => classifyStatus_eq_actualOrder _ _ _)

/-! ### Hunk-content fidelity (claim C5) -/

/-- A line that closes the open hunk: a `diff --git` file header or an
`@@` hunk header. -/
def isBoundary (line : List Char) : Bool :=
  (matchFileHeader line).isSome || (matchHunkHeader line).isSome

/-- What a parsed hunk's `content` actually is: the hunk's own `@@` header
line, followed by exactly the `+`/`-`/space lines that occur between that
header and the next boundary (next hunk or file header, or end of input),
newline-joined in input order. -/
def HunkContentSpec (ls : List (List Char)) (content : String) : Prop :=
  ∃ pre hl seg rest,
    ls = pre ++ hl :: (seg ++ rest) ∧
    (matchHunkHeader hl).isSome = true ∧
    (∀ l ∈ seg, isBoundary l = false) ∧
    content = joinContent (hl :: seg.filter isHunkLine) ∧
    (rest = [] ∨ ∃ r rs, rest = r :: rs ∧ isBoundary r = true)

/-- A hunk found in `pushHunk m f h` is either a hunk of `m` or `h`. -/
theorem mem_pushHunk {m : List (String × List DiffHunk)} {f : String} {h : DiffHunk}
    {f' : String} {hs' : List DiffHunk}
    (hfind : mapFind f' (pushHunk m f h) = some hs') {h' : DiffHunk} (hmem : h' ∈ hs') :
    (∃ hs, mapFind f' m = some hs ∧ h' ∈ hs) ∨ h' = h := by
  unfold pushHunk at hfind
  by_cases hf : f' = f
  · subst hf
    cases hm : mapFind f' m with
    | some hs =>
      rw [hm, mapFind_mapSet_self] at hfind
      obtain rfl : hs ++ [h] = hs' := by injection hfind
      rcases List.mem_append.1 hmem with h1 | h2
      · exact Or.inl ⟨hs, rfl, h1⟩
      · exact Or.inr (List.mem_singleton.1 h2)
    | none =>
      rw [hm, mapFind_mapSet_self] at hfind
      obtain rfl : [h] = hs' := by injection hfind
      exact Or.inr (List.mem_singleton.1 hmem)
  · cases hm : mapFind f m with
    | some hs =>
      rw [hm, mapFind_mapSet_ne hf] at hfind
      exact Or.inl ⟨hs', hfind, hmem⟩
    | none =>
      rw [hm, mapFind_mapSet_ne hf] at hfind
      exact Or.inl ⟨hs', hfind, hmem⟩

/-- A hunk found in `flushInto m f ch content` is either a hunk of `m` or
the closed version of `ch`. -/
theorem mem_flushInto {m : List (String × List DiffHunk)} {f : String}
    {ch : Option DiffHunk} {content : List (List Char)} {f' : String} {hs' : List DiffHunk}
    (hfind : mapFind f' (flushInto m f ch content) = some hs') {h' : DiffHunk}
    (hmem : h' ∈ hs') :
    (∃ hs, mapFind f' m = some hs ∧ h' ∈ hs) ∨
      (∃ h, ch = some h ∧ h' = { h with content := joinContent content }) := by
  cases ch with
  | none => exact Or.inl ⟨hs', hfind, hmem⟩
  | some h =>
    rcases mem_pushHunk hfind hmem with hold | hnew
    · exact Or.inl hold
    · exact Or.inr ⟨h, rfl, hnew⟩

/-- The scanning invariant: hunks already flushed satisfy
`HunkContentSpec`; the open hunk's accumulated content is its header plus
the `+`/`-`/space lines of the boundary-free segment scanned since. -/
theorem scanLines_content (L : List (List Char)) :
    ∀ (ls : List (List Char)) (st : ScanState) (pre : List (List Char)),
      L = pre ++ ls →
      (st.currentFile = none → st.currentHunk = none) →
      (∀ f hs, mapFind f st.hunksMap = some hs → ∀ h ∈ hs, HunkContentSpec L h.content) →
      (∀ h0, st.currentHunk = some h0 →
        ∃ pre0 hl seg, pre = pre0 ++ hl :: seg ∧ (matchHunkHeader hl).isSome = true ∧
          (∀ l ∈ seg, isBoundary l = false) ∧
          st.hunkContent = hl :: seg.filter isHunkLine) →
      ∀ f hs, mapFind f (scanLines ls st) = some hs → ∀ h ∈ hs,
        HunkContentSpec L h.content := by
  intro ls
  induction ls with
  | nil =>
    intro st pre hL hfile hdone hopen f hs hfind h hmem
    rw [show scanLines [] st = flushAll st from rfl] at hfind
    unfold flushAll at hfind
    cases hcf : st.currentFile with
    | none =>
      rw [hcf] at hfind
      exact hdone f hs hfind h hmem
    | some f0 =>
      rw [hcf] at hfind
      rcases mem_flushInto hfind hmem with ⟨hs0, hf0, hm0⟩ | ⟨h0, hch, heq⟩
      · exact hdone f hs0 hf0 h hm0
      · obtain ⟨pre0, hl, seg, hpre, hhl, hseg, hcontent⟩ := hopen h0 hch
        refine ⟨pre0, hl, seg, [], ?_, hhl, hseg, ?_, Or.inl rfl⟩
        · rw [hL, hpre]; simp
        · rw [heq, hcontent]
  | cons line rest ih =>
    intro st pre hL hfile hdone hopen f hs hfind h hmem
    have hL' : L = (pre ++ [line]) ++ rest := by rw [hL]; simp
    cases hfm : matchFileHeader line with
    | some pr =>
      simp only [scanLines, hfm] at hfind
      refine ih _ (pre ++ [line]) hL' (by simp) ?_ (by simp) f hs hfind h hmem
      -- flushed map is good
      intro f' hs' hfind' h' hmem'
      show HunkContentSpec L h'.content
      unfold flushAll at hfind'
      cases hcf : st.currentFile with
      | none =>
        rw [hcf] at hfind'
        exact hdone f' hs' hfind' h' hmem'
      | some f0 =>
        rw [hcf] at hfind'
        rcases mem_flushInto hfind' hmem' with ⟨hs0, hf0, hm0⟩ | ⟨h0, hch, heq⟩
        · exact hdone f' hs0 hf0 h' hm0
        · obtain ⟨pre0, hl, seg, hpre, hhl, hseg, hcontent⟩ := hopen h0 hch
          refine ⟨pre0, hl, seg, line :: rest, ?_, hhl, hseg, ?_, ?_⟩
          · rw [hL, hpre]; simp
          · rw [heq, hcontent]
          · exact Or.inr ⟨line, rest, rfl, by simp [isBoundary, hfm]⟩
    | none =>
      cases hhm : matchHunkHeader line with
      | some q =>
        cases hcf : st.currentFile with
        | some f0 =>
          simp only [scanLines, hfm, hhm, hcf] at hfind
          refine ih _ (pre ++ [line]) hL' (by simp) ?_ ?_ f hs hfind h hmem
          · -- flushed map is good
            intro f' hs' hfind' h' hmem'
            show HunkContentSpec L h'.content
            rcases mem_flushInto hfind' hmem' with ⟨hs0, hf0, hm0⟩ | ⟨h0, hch, heq⟩
            · exact hdone f' hs0 hf0 h' hm0
            · obtain ⟨pre0, hl, seg, hpre, hhl, hseg, hcontent⟩ := hopen h0 hch
              refine ⟨pre0, hl, seg, line :: rest, ?_, hhl, hseg, ?_, ?_⟩
              · rw [hL, hpre]; simp
              · rw [heq, hcontent]
              · exact Or.inr ⟨line, rest, rfl, by simp [isBoundary, hhm]⟩
          · -- new open hunk invariant
            intro h0 hch
            refine ⟨pre, line, [], by simp, by simp [hhm], by simp, ?_⟩
            simp
        | none =>
          -- unreachable hunk flush: currentHunk is none here, so the line
          -- falls through to the accumulation test, which fails
          have hch : st.currentHunk = none := hfile hcf
          simp only [scanLines, hfm, hhm, hcf, hch, Option.isSome_none,
            Bool.false_and, Bool.false_eq_true, if_false] at hfind
          refine ih _ (pre ++ [line]) hL' hfile hdone ?_ f hs hfind h hmem
          intro h0 hch0
          rw [hch] at hch0
          exact absurd hch0 (by simp)
      | none =>
        cases hch : st.currentHunk with
        | none =>
          simp only [scanLines, hfm, hhm, hch, Option.isSome_none,
            Bool.false_and, Bool.false_eq_true, if_false] at hfind
          · refine ih _ (pre ++ [line]) hL' hfile hdone ?_ f hs hfind h hmem
            intro h0 hch0
            rw [hch] at hch0
            exact absurd hch0 (by simp)
        | some h0 =>
          obtain ⟨pre0, hl, seg, hpre, hhl, hseg, hcontent⟩ := hopen h0 hch
          have hbline : isBoundary line = false := by simp [isBoundary, hfm, hhm]
          have hsegline : ∀ l ∈ seg ++ [line], isBoundary l = false := by
            intro l hl'
            rcases List.mem_append.1 hl' with hseg' | hline
            · exact hseg l hseg'
            · rw [List.mem_singleton.1 hline]
              exact hbline
          cases hpmc : isHunkLine line with
          | true =>
            simp only [scanLines, hfm, hhm, hch, Option.isSome_some,
              Bool.true_and, hpmc, if_true] at hfind
            refine ih
              { currentFile := st.currentFile, currentHunk := some h0
                hunkContent := st.hunkContent ++ [line], hunksMap := st.hunksMap }
              (pre ++ [line]) hL' ?_ hdone ?_ f hs hfind h hmem
            · intro hx
              rw [hfile hx] at hch
              simp at hch
            · intro h1 hch1
              refine ⟨pre0, hl, seg ++ [line], by rw [hpre]; simp, hhl, hsegline, ?_⟩
              show st.hunkContent ++ [line] = hl :: (seg ++ [line]).filter isHunkLine
              rw [hcontent, List.filter_append]
              simp [hpmc]
          | false =>
            simp only [scanLines, hfm, hhm, hch, Option.isSome_some,
              Bool.true_and, hpmc, if_false] at hfind
            refine ih st (pre ++ [line]) hL' hfile hdone ?_ f hs hfind h hmem
            intro h1 hch1
            refine ⟨pre0, hl, seg ++ [line], by rw [hpre]; simp, hhl, hsegline, ?_⟩
            show st.hunkContent = hl :: (seg ++ [line]).filter isHunkLine
            rw [hcontent, List.filter_append]
            simp [hpmc]

/-- Claim C5, as stated, is false: the `@@` hunk header line itself is part
of the accumulated content (`hunkContent = [line]` at the hunk header), so
a parsed hunk's `content` is not just the `+`/`-`/context lines.  Shown on
a one-hunk diff: the produced content carries the header line and differs
from the newline-join of the change lines alone. -/
theorem parseDiffOutput_content_includes_header :
    parseDiffOutput "diff --git a/f.txt b/f.txt\n@@ -1,2 +3,4 @@\n context\n+add\n-del" =
      [("f.txt", [{ oldStart := 1, oldLines := 2, newStart := 3, newLines := 4,
                    content := "@@ -1,2 +3,4 @@\n context\n+add\n-del" }])] ∧
    "@@ -1,2 +3,4 @@\n context\n+add\n-del" ≠
      String.intercalate "\n" [" context", "+add", "-del"] :=
  ⟨by decide, by decide⟩

/-- C5 (amended): every parsed `DiffHunk`'s `content` consists of the
hunk's own `@@` header line followed by exactly the added (`+`), removed
(`-`) and context (space) lines accumulated until the next hunk or file
header (or end of input) closes the hunk, newline-joined in their original
order. -/
theorem parseDiffOutput_hunk_content (diffOutput : String) (f : String)
    (hs : List DiffHunk) (hfind : mapFind f (parseDiffOutput diffOutput) = some hs) :
    ∀ h ∈ hs, HunkContentSpec (splitOnChar '\n' diffOutput.data) h.content := by
  intro h hmem
  exact scanLines_content (splitOnChar '\n' diffOutput.data) _
    { currentFile := none, currentHunk := none, hunkContent := [], hunksMap := [] }
    [] rfl (fun _ => rfl)
    (fun f' hs' hf => by simp at hf)
    (fun h0 hch => by simp at hch)
    f hs hfind h hmem

/-- Witness for `parseDiffOutput_hunk_content` on a concrete diff. -/
theorem parseDiffOutput_hunk_content_witness :
    mapFind "f.txt"
      (parseDiffOutput "diff --git a/f.txt b/f.txt\n@@ -1,2 +3,4 @@\n context\n+add\n-del") =
      some [{ oldStart := 1, oldLines := 2, newStart := 3, newLines := 4,
              content := "@@ -1,2 +3,4 @@\n context\n+add\n-del" }] ∧
    HunkContentSpec
      (splitOnChar '\n'
        "diff --git a/f.txt b/f.txt\n@@ -1,2 +3,4 @@\n context\n+add\n-del".data)
      "@@ -1,2 +3,4 @@\n context\n+add\n-del" :=
  ⟨by decide,
   parseDiffOutput_hunk_content
     "diff --git a/f.txt b/f.txt\n@@ -1,2 +3,4 @@\n context\n+add\n-del" "f.txt"
     [{ oldStart := 1, oldLines := 2, newStart := 3, newLines := 4,
        content := "@@ -1,2 +3,4 @@\n context\n+add\n-del" }]
     (by decide) _ (List.mem_singleton.2 rfl)⟩

/-! ## Step graph builder (src/services/configParser.ts, `buildStepTree`) -/

/-- `StepConfig` from types.ts.  `description` and `parentId` are the
fields the validator treats as optional. -/
structure StepConfig where
  id : String
  title : String
  description : Option String
  gitRef : String
  parentId : Option String
  explanation : String
deriving DecidableEq, Repr

/-- `StepNode` from types.ts. -/
structure StepNode where
  id : String
  title : String
  description : String
  gitRef : String
  parentId : Option String
  children : List String
  explanationPath : String
deriving DecidableEq, Repr

/-- `config.parentId || null`: an absent or empty `parentId` becomes null. -/
def effectiveParentId (c : StepConfig) : Option String :=
  match c.parentId with
  | some p => if p = "" then none else some p
  | none => none

/-- Pass 1's node for one config (`children` starts empty;
`config.description || ''`). -/
def initNode (c : StepConfig) : StepNode :=
  { id := c.id, title := c.title, description := c.description.getD ""
    gitRef := c.gitRef, parentId := effectiveParentId c, children := []
    explanationPath := c.explanation }

/-- Pass 1 of `buildStepTree`: fill the id→node map in input order. -/
def buildNodeMap (configs : List StepConfig) : List (String × StepNode) :=
  configs.foldl (fun m c => mapSet m c.id (initNode c)) []

/-- `parent.children.push(node.id)` on the entry keyed `parentId`. -/
def addChildTo (m : List (String × StepNode)) (parentId childId : String) :
    List (String × StepNode) :=
  m.map (fun e =>
    if e.1 = parentId then (e.1, { e.2 with children := e.2.children ++ [childId] }) else e)

/-- Pass 2 of `buildStepTree`: for each node (in map order) with a truthy
`parentId`, append its id to the parent's `children` when the parent
exists; a missing parent is silently skipped. -/
def applyParentLinks (pairs : List (String × Option String))
    (m : List (String × StepNode)) : List (String × StepNode) :=
  pairs.foldl (fun acc pr =>
    match pr.2 with
    | some pid => if (mapFind pid acc).isSome then addChildTo acc pid pr.1 else acc
    | none => acc) m

/-- `ConfigParser.buildStepTree`: two passes, then the map's values in
insertion order (`Array.from(nodeMap.values())`). -/
def buildStepTree (configs : List StepConfig) : List StepNode :=
  let nodeMap := buildNodeMap configs
  (applyParentLinks (nodeMap.map (fun e => (e.2.id, e.2.parentId))) nodeMap).map Prod.snd

theorem mapFind_eq_none_of_not_key {m : List (String × α)} {k : String}
    (h : ∀ e ∈ m, e.1 ≠ k) : mapFind k m = none := by
  induction m with
  | nil => rfl
  | cons e rest ih =>
    rw [show mapFind k (e :: rest) = if e.1 = k then some e.2 else mapFind k rest from rfl]
    rw [if_neg (h e (List.mem_cons_self e rest))]
    exact ih (fun e' he' => h e' (List.mem_cons_of_mem e he'))

theorem not_key_of_mapFind_eq_none {m : List (String × α)} {k : String}
    (h : mapFind k m = none) : ∀ e ∈ m, e.1 ≠ k := by
  induction m with
  | nil => intro e he; exact absurd he (List.not_mem_nil e)
  | cons e₀ rest ih =>
    intro e he
    rw [show mapFind k (e₀ :: rest) = if e₀.1 = k then some e₀.2 else mapFind k rest from rfl]
      at h
    by_cases h0 : e₀.1 = k
    · rw [if_pos h0] at h; exact absurd h (by simp)
    · rw [if_neg h0] at h
      rcases List.mem_cons.1 he with rfl | htail
      · exact h0
      · exact ih h e htail

theorem mapFind_isSome_iff_mem_keys {m : List (String × α)} {k : String} :
    (mapFind k m).isSome = true ↔ k ∈ m.map Prod.fst := by
  induction m with
  | nil => simp
  | cons e rest ih =>
    rw [show mapFind k (e :: rest) = if e.1 = k then some e.2 else mapFind k rest from rfl]
    by_cases h0 : e.1 = k
    · simp [h0]
    · simp only [if_neg h0, List.map_cons, List.mem_cons]
      rw [ih]
      constructor
      · exact Or.inr
      · rintro (h1 | h1)
        · exact absurd h1.symm h0
        · exact h1

theorem mapSet_absent {m : List (String × α)} {k : String} {v : α}
    (h : mapFind k m = none) : mapSet m k v = m ++ [(k, v)] := by
  induction m with
  | nil => rfl
  | cons e rest ih =>
    obtain ⟨k₀, v₀⟩ := e
    rw [show mapFind k ((k₀, v₀) :: rest) = if k₀ = k then some v₀ else mapFind k rest
      from rfl] at h
    by_cases h0 : k₀ = k
    · rw [if_pos h0] at h; exact absurd h (by simp)
    · rw [if_neg h0] at h
      show (if k₀ = k then (k₀, v) :: rest else (k₀, v₀) :: mapSet rest k v) = _
      rw [if_neg h0, ih h]
      rfl

theorem mem_mapSet {m : List (String × α)} {k : String} {v : α} {e : String × α}
    (h : e ∈ mapSet m k v) : e ∈ m ∨ e = (k, v) := by
  induction m with
  | nil => simpa [mapSet] using h
  | cons e₀ rest ih =>
    obtain ⟨k₀, v₀⟩ := e₀
    by_cases h0 : k₀ = k
    · rw [show mapSet ((k₀, v₀) :: rest) k v =
        if k₀ = k then (k₀, v) :: rest else (k₀, v₀) :: mapSet rest k v from rfl,
        if_pos h0] at h
      rcases List.mem_cons.1 h with rfl | htail
      · right; rw [h0]
      · left; exact List.mem_cons_of_mem _ htail
    · rw [show mapSet ((k₀, v₀) :: rest) k v =
        if k₀ = k then (k₀, v) :: rest else (k₀, v₀) :: mapSet rest k v from rfl,
        if_neg h0] at h
      rcases List.mem_cons.1 h with rfl | htail
      · left; exact List.mem_cons_self _ _
      · rcases ih htail with hm | he
        · left; exact List.mem_cons_of_mem _ hm
        · right; exact he

theorem keys_nodup_mapSet {m : List (String × α)} {k : String} {v : α}
    (h : (m.map Prod.fst).Nodup) : ((mapSet m k v).map Prod.fst).Nodup := by
  rw [keys_mapSet]
  by_cases hs : (mapFind k m).isSome
  · rw [if_pos hs]; exact h
  · rw [if_neg hs]
    have hk : k ∉ m.map Prod.fst := by
      intro hmem
      exact hs (mapFind_isSome_iff_mem_keys.2 hmem)
    rw [List.nodup_append]
    refine ⟨h, List.nodup_singleton k, ?_⟩
    intro x hx hxk
    rw [List.mem_singleton.1 hxk] at hx
    exact hk hx

theorem mapFind_of_mem_of_nodup {m : List (String × α)} {e : String × α}
    (hnd : (m.map Prod.fst).Nodup) (hmem : e ∈ m) : mapFind e.1 m = some e.2 := by
  induction m with
  | nil => exact absurd hmem (List.not_mem_nil e)
  | cons e₀ rest ih =>
    rcases List.mem_cons.1 hmem with rfl | htail
    · show (if e.1 = e.1 then some e.2 else mapFind e.1 rest) = some e.2
      rw [if_pos rfl]
    · have hne : e₀.1 ≠ e.1 := by
        intro hkey
        have : e₀.1 ∈ rest.map Prod.fst := hkey ▸ List.mem_map_of_mem Prod.fst htail
        exact (List.nodup_cons.1 hnd).1 this
      show (if e₀.1 = e.1 then some e₀.2 else mapFind e.1 rest) = some e.2
      rw [if_neg hne]
      exact ih (List.nodup_cons.1 hnd).2 htail

theorem mapFind_append_of_none {m : List (String × α)} {k : String}
    (h : mapFind k m = none) (l : List (String × α)) :
    mapFind k (m ++ l) = mapFind k l := by
  induction m with
  | nil => rfl
  | cons e rest ih =>
    obtain ⟨k', v⟩ := e
    rw [show mapFind k ((k', v) :: rest) = if k' = k then some v else mapFind k rest
      from rfl] at h
    by_cases hk : k' = k
    · rw [if_pos hk] at h; exact absurd h (by simp)
    · rw [if_neg hk] at h
      show (if k' = k then some v else mapFind k (rest ++ l)) = mapFind k l
      rw [if_neg hk]
      exact ih h

theorem getLast?_cons_ne_none (a : α) (l : List α) : (a :: l).getLast? ≠ none := by
  induction l generalizing a with
  | nil => simp
  | cons b bs ih =>
    rw [List.getLast?_cons_cons]
    exact ih b

theorem getLast?_cons_of_some {l : List α} {x : α} (h : l.getLast? = some x) (a : α) :
    (a :: l).getLast? = some x := by
  cases l with
  | nil => exact absurd h (by simp)
  | cons b bs => rw [List.getLast?_cons_cons]; exact h

/-- The order of first occurrences of a key list (`Map` insertion order). -/
def firstOccurrences (ks : List String) : List String :=
  ks.foldl (fun acc k => if k ∈ acc then acc else acc ++ [k]) []

theorem buildNodeMap_keys_aux :
    ∀ (configs : List StepConfig) (m : List (String × StepNode)),
      (configs.foldl (fun m c => mapSet m c.id (initNode c)) m).map Prod.fst =
        configs.foldl (fun acc c => if c.id ∈ acc then acc else acc ++ [c.id])
          (m.map Prod.fst) := by
  intro configs
  induction configs with
  | nil => intro m; rfl
  | cons c cs ih =>
    intro m
    simp only [List.foldl_cons]
    rw [ih]
    congr 1
    rw [keys_mapSet]
    by_cases hs : (mapFind c.id m).isSome
    · rw [if_pos hs, if_pos (mapFind_isSome_iff_mem_keys.1 hs)]
    · rw [if_neg hs, if_neg (fun hmem => hs (mapFind_isSome_iff_mem_keys.2 hmem))]

/-- Pass 1's key order is the order of first occurrences of the ids. -/
theorem buildNodeMap_keys (configs : List StepConfig) :
    (buildNodeMap configs).map Prod.fst = firstOccurrences (configs.map (fun c => c.id)) := by
  rw [buildNodeMap, buildNodeMap_keys_aux, firstOccurrences, List.foldl_map]
  rfl

theorem buildNodeMap_keys_nodup_aux :
    ∀ (configs : List StepConfig) (m : List (String × StepNode)),
      (m.map Prod.fst).Nodup →
      ((configs.foldl (fun m c => mapSet m c.id (initNode c)) m).map Prod.fst).Nodup := by
  intro configs
  induction configs with
  | nil => intro m h; exact h
  | cons c cs ih =>
    intro m h
    exact ih _ (keys_nodup_mapSet h)

theorem buildNodeMap_keys_nodup (configs : List StepConfig) :
    ((buildNodeMap configs).map Prod.fst).Nodup :=
  buildNodeMap_keys_nodup_aux configs [] (by simp)

/-- Pass 1's lookup: the last config with a given id wins. -/
theorem buildNodeMap_find_aux (k : String) :
    ∀ (configs : List StepConfig) (m : List (String × StepNode)),
      mapFind k (configs.foldl (fun m c => mapSet m c.id (initNode c)) m) =
        match (configs.filter (fun c => c.id = k)).getLast? with
        | some c => some (initNode c)
        | none => mapFind k m := by
  intro configs
  induction configs with
  | nil => intro m; rfl
  | cons c cs ih =>
    intro m
    rw [List.foldl_cons, ih]
    by_cases hc : c.id = k
    · rw [List.filter_cons_of_pos (by simp [hc])]
      cases hlast : (cs.filter (fun c' => c'.id = k)).getLast? with
      | some c' =>
        rw [getLast?_cons_of_some hlast]
      | none =>
        have hnil : cs.filter (fun c' => c'.id = k) = [] := by
          cases hfl : cs.filter (fun c' => c'.id = k) with
          | nil => rfl
          | cons x xs => rw [hfl] at hlast; exact absurd hlast (getLast?_cons_ne_none x xs)
        rw [hnil]
        show mapFind k (mapSet m c.id (initNode c)) = some (initNode c)
        rw [hc, mapFind_mapSet_self]
    · rw [List.filter_cons_of_neg (by simp [hc])]
      cases hlast : (cs.filter (fun c' => c'.id = k)).getLast? with
      | some c' => rfl
      | none =>
        show mapFind k (mapSet m c.id (initNode c)) = mapFind k m
        exact mapFind_mapSet_ne (fun hk => hc hk.symm)

theorem buildNodeMap_find (configs : List StepConfig) (k : String) :
    mapFind k (buildNodeMap configs) =
      match (configs.filter (fun c => c.id = k)).getLast? with
      | some c => some (initNode c)
      | none => none :=
  buildNodeMap_find_aux k configs []

/-- Every entry of pass 1's map has a node whose `id` equals its key. -/
theorem buildNodeMap_id_eq_key :
    ∀ (configs : List StepConfig) (m : List (String × StepNode)),
      (∀ e ∈ m, e.2.id = e.1) →
      ∀ e ∈ configs.foldl (fun m c => mapSet m c.id (initNode c)) m, e.2.id = e.1 := by
  intro configs
  induction configs with
  | nil => intro m h; exact h
  | cons c cs ih =>
    intro m h
    refine ih _ ?_
    intro e he
    rcases mem_mapSet he with hm | rfl
    · exact h e hm
    · rfl

theorem addChildTo_of_absent {m : List (String × StepNode)} {pid cid : String}
    (h : mapFind pid m = none) : addChildTo m pid cid = m := by
  unfold addChildTo
  have hkeys := not_key_of_mapFind_eq_none h
  calc m.map (fun e =>
        if e.1 = pid then (e.1, { e.2 with children := e.2.children ++ [cid] }) else e) =
      m.map (fun e => e) := List.map_congr_left (fun e he => by rw [if_neg (hkeys e he)])
    _ = m := List.map_id' m

/-- Closed form of pass 2: each node's `children` gains, in order, the
first components of the pairs whose parent id equals its key. -/
theorem applyParentLinks_closed :
    ∀ (pairs : List (String × Option String)) (m : List (String × StepNode)),
      applyParentLinks pairs m = m.map (fun e =>
        (e.1, { e.2 with children := e.2.children ++
          ((pairs.filter (fun pr => pr.2 = some e.1)).map Prod.fst) })) := by
  intro pairs
  induction pairs with
  | nil =>
    intro m
    show m = _
    calc m = m.map (fun e => e) := (List.map_id' m).symm
      _ = _ := List.map_congr_left (fun e he => by
            obtain ⟨k, n⟩ := e
            cases n
            simp)
  | cons pr prs ih =>
    intro m
    obtain ⟨cid, pid?⟩ := pr
    show applyParentLinks prs
        (match pid? with
          | some pid => if (mapFind pid m).isSome then addChildTo m pid cid else m
          | none => m) = _
    cases pid? with
    | none =>
      rw [ih]
      refine List.map_congr_left (fun e he => ?_)
      simp [List.filter_cons]
    | some pid =>
      by_cases hg : (mapFind pid m).isSome
      · show applyParentLinks prs
            (if (mapFind pid m).isSome then addChildTo m pid cid else m) = _
        rw [if_pos hg, ih, addChildTo, List.map_map]
        refine List.map_congr_left (fun e he => ?_)
        by_cases hpe : e.1 = pid
        · simp only [Function.comp, if_pos hpe, List.filter_cons]
          have hsome : (some pid = some e.1) := by rw [hpe]
          rw [if_pos (by simp [hsome])]
          simp only [List.map_cons]
          rw [List.append_assoc]
          rfl
        · simp only [Function.comp, if_neg hpe, List.filter_cons]
          have hne : ¬(some pid = some e.1) := by
            intro hx
            exact hpe (Option.some_injective _ hx).symm
          simp [hne]
      · show applyParentLinks prs
            (if (mapFind pid m).isSome then addChildTo m pid cid else m) = _
        rw [if_neg hg, ih]
        refine List.map_congr_left (fun e he => ?_)
        have hnone : mapFind pid m = none := by
          cases hfm : mapFind pid m with
          | none => rfl
          | some v => rw [hfm] at hg; simp at hg
        have hne : ¬(some pid = some e.1) := by
          intro hx
          exact not_key_of_mapFind_eq_none hnone e he (Option.some_injective _ hx).symm
        simp [List.filter_cons, hne]

theorem map_filter_map (f : α → β) (p : β → Bool) (g : β → γ) :
    ∀ l : List α, ((l.map f).filter p).map g =
      (l.filter (fun x => p (f x))).map (fun x => g (f x)) := by
  intro l
  induction l with
  | nil => rfl
  | cons x xs ih =>
    simp only [List.map_cons, List.filter_cons]
    cases hp : p (f x) <;> simp [hp, ih]

theorem buildNodeMap_eq_of_nodup_aux :
    ∀ (configs : List StepConfig) (m : List (String × StepNode)),
      (configs.map (fun c => c.id)).Nodup →
      (∀ c ∈ configs, mapFind c.id m = none) →
      configs.foldl (fun m c => mapSet m c.id (initNode c)) m =
        m ++ configs.map (fun c => (c.id, initNode c)) := by
  intro configs
  induction configs with
  | nil => intro m _ _; simp
  | cons c cs ih =>
    intro m hnd habs
    have hnd' : (c.id :: cs.map (fun c => c.id)).Nodup := by simpa using hnd
    rw [List.foldl_cons, mapSet_absent (habs c (List.mem_cons_self c cs))]
    rw [ih _ (List.nodup_cons.1 hnd').2 ?_]
    · simp
    · intro c' hc'
      rw [mapFind_append_of_none (habs c' (List.mem_cons_of_mem c hc'))]
      have hne : c.id ≠ c'.id := by
        intro hx
        exact (List.nodup_cons.1 hnd').1
          (hx ▸ List.mem_map_of_mem (fun c => c.id) hc')
      show (if c.id = c'.id then some (initNode c) else mapFind c'.id []) = none
      rw [if_neg hne]
      rfl

/-- With unique ids, pass 1 is just the input list of `(id, node)` pairs. -/
theorem buildNodeMap_eq_of_nodup (configs : List StepConfig)
    (h : (configs.map (fun c => c.id)).Nodup) :
    buildNodeMap configs = configs.map (fun c => (c.id, initNode c)) := by
  rw [buildNodeMap, buildNodeMap_eq_of_nodup_aux configs [] h (fun c _ => rfl)]
  rfl

/-- C7: on a list of step configs with unique ids, `buildStepTree` returns
one node per config in input order (same id sequence), and every node's
`children` list is exactly the inverse of the (truthy) `parentId` relation,
children appended in input order; a config whose `parentId` does not
resolve simply appears in no `children` list, with no error raised. -/
theorem buildStepTree_spec (configs : List StepConfig)
    (h : (configs.map (fun c => c.id)).Nodup) :
    (buildStepTree configs).map (fun n => n.id) = configs.map (fun c => c.id) ∧
    ∀ n ∈ buildStepTree configs,
      n.children =
        (configs.filter (fun c => effectiveParentId c = some n.id)).map (fun c => c.id) := by
  have hbuild : buildStepTree configs = configs.map (fun c =>
      { id := c.id, title := c.title, description := c.description.getD ""
        gitRef := c.gitRef, parentId := effectiveParentId c
        children :=
          (configs.filter (fun c' => effectiveParentId c' = some c.id)).map (fun c' => c'.id)
        explanationPath := c.explanation }) := by
    simp only [buildStepTree, buildNodeMap_eq_of_nodup configs h, applyParentLinks_closed,
      List.map_map, map_filter_map]
    rfl
  constructor
  · rw [hbuild, List.map_map]
    rfl
  · intro n hn
    rw [hbuild] at hn
    obtain ⟨c, _, rfl⟩ := List.mem_map.1 hn
    rfl

/-- Witness for `buildStepTree_spec` on a two-step config. -/
theorem buildStepTree_spec_witness :
    (List.map (fun c => c.id)
      [({ id := "s1", title := "A", description := none, gitRef := "r1"
          parentId := none, explanation := "a.md" } : StepConfig),
       { id := "s2", title := "B", description := none, gitRef := "r2"
         parentId := some "s1", explanation := "b.md" }]).Nodup ∧
    (buildStepTree
      [{ id := "s1", title := "A", description := none, gitRef := "r1"
         parentId := none, explanation := "a.md" },
       { id := "s2", title := "B", description := none, gitRef := "r2"
         parentId := some "s1", explanation := "b.md" }]).map (fun n => n.id) =
      ["s1", "s2"] :=
  ⟨by decide,
   (buildStepTree_spec
      [{ id := "s1", title := "A", description := none, gitRef := "r1"
         parentId := none, explanation := "a.md" },
       { id := "s2", title := "B", description := none, gitRef := "r2"
         parentId := some "s1", explanation := "b.md" }] (by decide)).1.trans (by decide)⟩

/-- C9: on an input list with duplicate step ids, `buildStepTree` returns
exactly one node per distinct id, at the position of the id's first
occurrence, and the config occurring last for that id supplies the node's
fields. -/
theorem buildStepTree_duplicates (configs : List StepConfig) :
    (buildStepTree configs).map (fun n => n.id) =
      firstOccurrences (configs.map (fun c => c.id)) ∧
    ∀ n ∈ buildStepTree configs, ∃ c,
      (configs.filter (fun x => x.id = n.id)).getLast? = some c ∧
      n.title = c.title ∧ n.description = c.description.getD "" ∧ n.gitRef = c.gitRef ∧
      n.parentId = effectiveParentId c ∧ n.explanationPath = c.explanation := by
  have hids : ∀ e ∈ buildNodeMap configs, e.2.id = e.1 :=
    buildNodeMap_id_eq_key configs [] (by intro e he; exact absurd he (List.not_mem_nil e))
  constructor
  · simp only [buildStepTree, applyParentLinks_closed, List.map_map]
    calc (buildNodeMap configs).map (fun e => e.2.id) =
        (buildNodeMap configs).map Prod.fst :=
          List.map_congr_left (fun e he => hids e he)
      _ = firstOccurrences (configs.map (fun c => c.id)) := buildNodeMap_keys configs
  · intro n hn
    simp only [buildStepTree, applyParentLinks_closed, List.map_map] at hn
    obtain ⟨e, he, rfl⟩ := List.mem_map.1 hn
    have hfind : mapFind e.1 (buildNodeMap configs) = some e.2 :=
      mapFind_of_mem_of_nodup (buildNodeMap_keys_nodup configs) he
    rw [buildNodeMap_find configs e.1] at hfind
    cases hlast : (configs.filter (fun x => x.id = e.1)).getLast? with
    | none => rw [hlast] at hfind; exact absurd hfind (by simp)
    | some c =>
      rw [hlast] at hfind
      have he2 : e.2 = initNode c := by
        injection hfind with hh
        exact hh.symm
      have hid : e.2.id = e.1 := hids e he
      refine ⟨c, ?_, ?_, ?_, ?_, ?_, ?_⟩
      · show (configs.filter (fun x => x.id = e.2.id)).getLast? = some c
        rw [hid]
        exact hlast
      · show e.2.title = c.title
        rw [he2]; rfl
      · show e.2.description = c.description.getD ""
        rw [he2]; rfl
      · show e.2.gitRef = c.gitRef
        rw [he2]; rfl
      · show e.2.parentId = effectiveParentId c
        rw [he2]; rfl
      · show e.2.explanationPath = c.explanation
        rw [he2]; rfl

/-- Witness for `buildStepTree_duplicates` on a duplicate-id config list:
one node comes out, and the last config ("B") supplied its fields. -/
theorem buildStepTree_duplicates_witness :
    (buildStepTree
      [({ id := "s1", title := "A", description := none, gitRef := "r1"
          parentId := none, explanation := "a.md" } : StepConfig),
       { id := "s1", title := "B", description := none, gitRef := "r2"
         parentId := none, explanation := "b.md" }]).map (fun n => n.id) = ["s1"] ∧
    (∃ c, (([({ id := "s1", title := "A", description := none, gitRef := "r1"
                parentId := none, explanation := "a.md" } : StepConfig),
             { id := "s1", title := "B", description := none, gitRef := "r2"
               parentId := none, explanation := "b.md" }]).filter
        (fun x => x.id = ("s1" : String))).getLast? = some c ∧
      ("B" : String) = c.title ∧ ("" : String) = c.description.getD "" ∧
      ("r2" : String) = c.gitRef ∧ (none : Option String) = effectiveParentId c ∧
      ("b.md" : String) = c.explanation) :=
  ⟨(buildStepTree_duplicates
      [{ id := "s1", title := "A", description := none, gitRef := "r1"
         parentId := none, explanation := "a.md" },
       { id := "s1", title := "B", description := none, gitRef := "r2"
         parentId := none, explanation := "b.md" }]).1.trans (by decide),
   (buildStepTree_duplicates
      [{ id := "s1", title := "A", description := none, gitRef := "r1"
         parentId := none, explanation := "a.md" },
       { id := "s1", title := "B", description := none, gitRef := "r2"
         parentId := none, explanation := "b.md" }]).2
     { id := "s1", title := "B", description := "", gitRef := "r2"
       parentId := none, children := [], explanationPath := "b.md" }
     (by decide)⟩

/-! ## Tutorial orchestrator (src/services/tutorialManager.ts)

The asynchronous git/filesystem/dialog collaborators are modelled as
explicit inputs: the user's dirty-state choice, the outcomes of
`clone`/`stash`/`checkout`, the located config path and the parse result.
The mutable manager/git state is threaded explicitly; checkout attempts
are counted so that "no checkout is performed" is expressible. -/

/-- `Tutorial` from types.ts. -/
structure Tutorial where
  id : String
  name : String
  description : String
  rootPath : String
  steps : List StepNode
  currentStepId : Option String
deriving DecidableEq, Repr

/-- The errors thrown by the manager and its collaborators.  `generic`
models a plain `new Error(message)`; the remaining constructors model the
typed error classes of errors.ts (`TutorialNotLoadedError`,
`StepNotFoundError`, `GitOperationError`). -/
inductive ThrownError where
  | generic (message : String)
  | tutorialNotLoaded
  | stepNotFound (stepId : String)
  | gitOperation (operation : String) (message : String)
deriving DecidableEq, Repr

/-- The `message` carried by each error (errors.ts constructors). -/
def errorMessage : ThrownError → String
  | .generic m => m
  | .tutorialNotLoaded => "没有加载的教程，请先打开一个教程"
  | .stepNotFound stepId => "步骤不存在: " ++ stepId
  | .gitOperation _ m => m

/-- The user's answer to the dirty-working-tree dialog; `cancel` also
covers dismissing the dialog (any non-listed answer falls to the `else`
branch). -/
inductive DirtyChoice where
  | stashAndContinue
  | discardAndContinue
  | cancel
deriving DecidableEq, Repr

/-- The manager's state together with the bound working tree: the current
tutorial, the git HEAD, the dirty flag, the stash stack depth, the bound
repository path, and a count of checkout attempts. -/
structure ManagerState where
  currentTutorial : Option Tutorial
  gitHead : String
  gitDirty : Bool
  gitStashes : Nat
  gitBound : Option String
  checkoutCount : Nat
deriving DecidableEq, Repr

/-- The `checkout(step.gitRef)` call and, on success, the
`currentStepId = stepId` update and `HEAD` move; a failed checkout
propagates the error with no tutorial update. -/
def runCheckout (step : StepNode) (t : Tutorial) (stepId : String)
    (checkoutResult : Except ThrownError Unit) (s : ManagerState) :
    ManagerState × Except ThrownError Unit :=
  let s2 := { s with checkoutCount := s.checkoutCount + 1 }
  match checkoutResult with
  | .error e => (s2, .error e)
  | .ok _ =>
    ({ s2 with
        gitHead := step.gitRef
        currentTutorial := some { t with currentStepId := some stepId } }, .ok ())

/-- `TutorialManager.navigateToStep`, with the dialog answer and the
`stash`/`checkout` subprocess outcomes passed in.  Mirrors the source:
missing tutorial and missing step throw plain `Error`s; a dirty tree asks
the user (cancel returns with no checkout, stash runs first and its failure
propagates); then checkout runs, and only after it succeeds is
`currentStepId` updated. -/
def navigateToStep (stepId : String) (choice : DirtyChoice)
    (stashResult checkoutResult : Except ThrownError Unit) (s : ManagerState) :
    ManagerState × Except ThrownError Unit :=
  match s.currentTutorial with
  | none => (s, .error (.generic "没有加载的教程"))
  | some t =>
    match t.steps.find? (fun st => st.id = stepId) with
    | none => (s, .error (.generic ("步骤不存在: " ++ stepId)))
    | some step =>
      if s.gitDirty then
        match choice with
        | .cancel => (s, .ok ())
        | .stashAndContinue =>
          match stashResult with
          | .error e => (s, .error e)
          | .ok _ =>
            runCheckout step t stepId checkoutResult
              { s with gitDirty := false, gitStashes := s.gitStashes + 1 }
        | .discardAndContinue => runCheckout step t stepId checkoutResult s
      else runCheckout step t stepId checkoutResult s

/-- C2: `navigateToStep` is atomic with respect to failure.  (1) On a dirty
tree with the cancel choice, the whole state — HEAD, `currentStepId`, the
checkout counter — is unchanged (no checkout performed).  (2) Whenever the
call fails, the Tutorial (hence `currentStepId`) is unchanged.  (3) The
current tutorial changes only through a performed, successful checkout,
and then `currentStepId` becomes the target step id and HEAD the step's
ref. -/
theorem navigateToStep_atomic (stepId : String) (choice : DirtyChoice)
    (stashResult checkoutResult : Except ThrownError Unit) (s : ManagerState) :
    (s.gitDirty = true → choice = .cancel →
      (navigateToStep stepId choice stashResult checkoutResult s).1 = s) ∧
    (∀ e, (navigateToStep stepId choice stashResult checkoutResult s).2 = .error e →
      (navigateToStep stepId choice stashResult checkoutResult s).1.currentTutorial =
        s.currentTutorial) ∧
    ((navigateToStep stepId choice stashResult checkoutResult s).1.currentTutorial ≠
        s.currentTutorial →
      ∃ t step, s.currentTutorial = some t ∧
        t.steps.find? (fun st => st.id = stepId) = some step ∧
        checkoutResult = .ok () ∧
        (navigateToStep stepId choice stashResult checkoutResult s).2 = .ok () ∧
        (navigateToStep stepId choice stashResult checkoutResult s).1.currentTutorial =
          some { t with currentStepId := some stepId } ∧
        (navigateToStep stepId choice stashResult checkoutResult s).1.gitHead =
          step.gitRef ∧
        (navigateToStep stepId choice stashResult checkoutResult s).1.checkoutCount =
          s.checkoutCount + 1) := by
  have heqNoTut : s.currentTutorial = none →
      navigateToStep stepId choice stashResult checkoutResult s =
        (s, .error (.generic "没有加载的教程")) := by
    intro hct
    simp only [navigateToStep, hct]
  have heqNoStep : ∀ t, s.currentTutorial = some t →
      t.steps.find? (fun st => st.id = stepId) = none →
      navigateToStep stepId choice stashResult checkoutResult s =
        (s, .error (.generic ("步骤不存在: " ++ stepId))) := by
    intro t hct hfind
    simp only [navigateToStep, hct, hfind]
  have heqFound : ∀ t step, s.currentTutorial = some t →
      t.steps.find? (fun st => st.id = stepId) = some step →
      navigateToStep stepId choice stashResult checkoutResult s =
        (if s.gitDirty then
          match choice with
          | .cancel => (s, .ok ())
          | .stashAndContinue =>
            match stashResult with
            | .error e => (s, .error e)
            | .ok _ =>
              runCheckout step t stepId checkoutResult
                { s with gitDirty := false, gitStashes := s.gitStashes + 1 }
          | .discardAndContinue => runCheckout step t stepId checkoutResult s
        else runCheckout step t stepId checkoutResult s) := by
    intro t step hct hfind
    simp only [navigateToStep, hct, hfind]
  cases hct : s.currentTutorial with
  | none =>
    rw [heqNoTut hct]
    exact ⟨fun _ _ => rfl, fun e _ => hct, fun hne => absurd hct hne⟩
  | some t =>
    cases hfind : t.steps.find? (fun st => st.id = stepId) with
    | none =>
      rw [heqNoStep t hct hfind]
      exact ⟨fun _ _ => rfl, fun e _ => hct, fun hne => absurd hct hne⟩
    | some step =>
      rw [heqFound t step hct hfind]
      by_cases hd : s.gitDirty = true
      · rw [if_pos hd]
        cases choice with
        | cancel =>
          exact ⟨fun _ _ => rfl, fun e he => Except.noConfusion he,
            fun hne => absurd hct hne⟩
        | stashAndContinue =>
          refine ⟨fun _ hc => DirtyChoice.noConfusion hc, ?_, ?_⟩
          · cases stashResult with
            | error e' => exact fun e _ => hct
            | ok u =>
              cases checkoutResult with
              | error e' => exact fun e _ => hct
              | ok u' => exact fun e he => Except.noConfusion he
          · cases stashResult with
            | error e' => exact fun hne => absurd hct hne
            | ok u =>
              cases checkoutResult with
              | error e' => exact fun hne => absurd hct hne
              | ok u' =>
                exact fun _ => ⟨t, step, rfl, hfind, rfl, rfl, rfl, rfl, rfl⟩
        | discardAndContinue =>
          refine ⟨fun _ hc => DirtyChoice.noConfusion hc, ?_, ?_⟩
          · cases checkoutResult with
            | error e' => exact fun e _ => hct
            | ok u' => exact fun e he => Except.noConfusion he
          · cases checkoutResult with
            | error e' => exact fun hne => absurd hct hne
            | ok u' => exact fun _ => ⟨t, step, rfl, hfind, rfl, rfl, rfl, rfl, rfl⟩
      · rw [if_neg hd]
        refine ⟨fun hdd _ => absurd hdd hd, ?_, ?_⟩
        · cases checkoutResult with
          | error e' => exact fun e _ => hct
          | ok u' => exact fun e he => Except.noConfusion he
        · cases checkoutResult with
          | error e' => exact fun hne => absurd hct hne
          | ok u' => exact fun _ => ⟨t, step, rfl, hfind, rfl, rfl, rfl, rfl, rfl⟩

/-- A one-step tutorial used by concrete witnesses. -/
def exTutorial : Tutorial where
  id := "t"
  name := "T"
  description := "d"
  rootPath := "/r"
  steps := [{ id := "s1", title := "A", description := "", gitRef := "r1"
              parentId := none, children := [], explanationPath := "a.md" }]
  currentStepId := none

/-- A dirty manager state bound to `exTutorial`. -/
def exDirtyState : ManagerState where
  currentTutorial := some exTutorial
  gitHead := "h"
  gitDirty := true
  gitStashes := 0
  gitBound := some "/r"
  checkoutCount := 0

/-- Witness for `navigateToStep_atomic`: a dirty state with the cancel
choice is left fully unchanged. -/
theorem navigateToStep_atomic_witness :
    exDirtyState.gitDirty = true ∧
    (navigateToStep "s1" .cancel (.ok ()) (.ok ()) exDirtyState).1 = exDirtyState :=
  ⟨rfl, (navigateToStep_atomic "s1" .cancel (.ok ()) (.ok ()) exDirtyState).1 rfl rfl⟩

/-- C6 (evidence): `navigateToStep` throws plain `Error` objects — the
embedding's `generic` constructor — for the no-tutorial and unknown-step
failures, not the typed `TutorialNotLoadedError`/`StepNotFoundError`
objects that errors.ts defines (and that `ErrorHandler` dispatches on). -/
theorem navigateToStep_untyped_errors :
    (navigateToStep "step-1" .cancel (.ok ()) (.ok ())
        { currentTutorial := none, gitHead := "h", gitDirty := false
          gitStashes := 0, gitBound := none, checkoutCount := 0 }).2 =
      .error (.generic "没有加载的教程") ∧
    (navigateToStep "missing" .cancel (.ok ()) (.ok ())
        { exDirtyState with gitDirty := false }).2 =
      .error (.generic ("步骤不存在: " ++ "missing")) ∧
    (∀ m, ThrownError.generic m ≠ ThrownError.tutorialNotLoaded) ∧
    (∀ m sid, ThrownError.generic m ≠ ThrownError.stepNotFound sid) :=
  ⟨rfl, rfl, fun _ h => ThrownError.noConfusion h, fun _ _ h => ThrownError.noConfusion h⟩

/-! ### Loading a tutorial (`TutorialManager.loadTutorial`) -/

/-- `TutorialConfig` from types.ts. -/
structure TutorialConfig where
  name : String
  description : String
  version : String
  steps : List StepConfig
deriving DecidableEq, Repr

/-- JavaScript `String.prototype.startsWith`. -/
def strStartsWith (s pre : String) : Bool :=
  pre.data.isPrefixOf s.data

/-- `TutorialManager.isRemoteUrl`: recognized remote-URL prefixes. -/
def isRemoteUrl (source : String) : Bool :=
  strStartsWith source "http://" || strStartsWith source "https://" ||
    strStartsWith source "git@" || strStartsWith source "git://"

/-- UTF-8 encoding of one character (what `Buffer.from(string)` uses). -/
def encodeCharUtf8 (c : Char) : List Nat :=
  let n := c.toNat
  if n < 128 then [n]
  else if n < 2048 then [192 + n / 64, 128 + n % 64]
  else if n < 65536 then [224 + n / 4096, 128 + (n / 64) % 64, 128 + n % 64]
  else [240 + n / 262144, 128 + (n / 4096) % 64, 128 + (n / 64) % 64, 128 + n % 64]

/-- The base64 alphabet. -/
def base64Chars : List Char :=
  "ABCDEFGHIJKLMNOPQRSTUVWXYZabcdefghijklmnopqrstuvwxyz0123456789+/".data

/-- One base64 digit. -/
def b64Char (n : Nat) : Char := base64Chars.getD n 'A'

/-- Standard base64 of a byte list (`Buffer.prototype.toString('base64')`). -/
def base64Encode : List Nat → List Char
  | [] => []
  | [b1] => [b64Char (b1 / 4), b64Char (b1 % 4 * 16), '=', '=']
  | [b1, b2] => [b64Char (b1 / 4), b64Char (b1 % 4 * 16 + b2 / 16), b64Char (b2 % 16 * 4), '=']
  | b1 :: b2 :: b3 :: rest =>
    b64Char (b1 / 4) :: b64Char (b1 % 4 * 16 + b2 / 16) ::
      b64Char (b2 % 16 * 4 + b3 / 64) :: b64Char (b3 % 64) :: base64Encode rest

/-- `TutorialManager.generateTutorialId`: base64 of the path with
`/`, `+`, `=` replaced by `_`. -/
def generateTutorialId (repoPath : String) : String :=
  String.mk ((base64Encode (repoPath.data.flatMap encodeCharUtf8)).map
    (fun c => if c = '/' ∨ c = '+' ∨ c = '=' then '_' else c))

/-- `TutorialManager.validateGitRefs`: collect every step whose `gitRef`
does not resolve; when any exist, fail with a message naming them all. -/
def validateGitRefs (refE : String → Bool) (config : TutorialConfig) :
    Except ThrownError Unit :=
  let invalidRefs :=
    (config.steps.filter (fun step => !(refE step.gitRef))).map
      (fun step => step.id ++ ": " ++ step.gitRef)
  if invalidRefs.length > 0 then
    .error (.generic ("以下步骤的 Git 引用无效:\n" ++ String.intercalate "\n" invalidRefs))
  else .ok ()

/-- The collaborator outcomes `loadTutorial` depends on: the resolved
clone directory, the clone outcome, the config file found by
`findConfigFile`, the parse outcome, and the `refExists` probe. -/
structure LoadEnv where
  cloneDir : String
  cloneResult : Except ThrownError Unit
  configPath : Option String
  parseResult : Except ThrownError TutorialConfig
  refExists : String → Bool

/-- The tail of `loadTutorial` after the git service is bound: find the
config file, parse it, validate every `gitRef`, build the step tree, then
publish the `Tutorial` as current. -/
def loadAfterBind (env : LoadEnv) (repoPath : String) (s : ManagerState) :
    ManagerState × Except ThrownError Tutorial :=
  match env.configPath with
  | none => (s, .error (.generic "未找到教程配置文件 (tutorial.yaml, tutorial.yml, 或 tutorial.json)"))
  | some _ =>
    match env.parseResult with
    | .error e => (s, .error e)
    | .ok config =>
      match validateGitRefs env.refExists config with
      | .error e => (s, .error e)
      | .ok _ =>
        let tutorial : Tutorial :=
          { id := generateTutorialId repoPath, name := config.name
            description := config.description, rootPath := repoPath
            steps := buildStepTree config.steps, currentStepId := none }
        ({ s with currentTutorial := some tutorial }, .ok tutorial)

/-- `TutorialManager.loadTutorial`: clone remote sources (binding the git
service to the temp dir), bind local paths directly, then load. -/
def loadTutorial (source : String) (env : LoadEnv) (s : ManagerState) :
    ManagerState × Except ThrownError Tutorial :=
  if isRemoteUrl source then
    match env.cloneResult with
    | .error e => (s, .error e)
    | .ok _ => loadAfterBind env env.cloneDir { s with gitBound := some env.cloneDir }
  else
    loadAfterBind env source { s with gitBound := some source }

/-- C3: `loadTutorial` validates every step's `gitRef` eagerly and fails
atomically.  (1) On any failure the previous current tutorial is left in
place.  (2) When the config parses but some refs are invalid, the load
fails with a single error naming every offending step (`id: gitRef`,
newline-joined), and the current tutorial is unchanged — in particular no
`Tutorial` is built from the bad config. -/
theorem loadTutorial_validation :
    (∀ source env s e, (loadTutorial source env s).2 = .error e →
      (loadTutorial source env s).1.currentTutorial = s.currentTutorial) ∧
    (∀ source env s config,
      env.parseResult = .ok config →
      (isRemoteUrl source = false ∨ env.cloneResult = .ok ()) →
      env.configPath.isSome = true →
      (config.steps.filter (fun step => !(env.refExists step.gitRef))) ≠ [] →
      (loadTutorial source env s).2 = .error (.generic ("以下步骤的 Git 引用无效:\n" ++
        String.intercalate "\n"
          ((config.steps.filter (fun step => !(env.refExists step.gitRef))).map
            (fun step => step.id ++ ": " ++ step.gitRef)))) ∧
      (loadTutorial source env s).1.currentTutorial = s.currentTutorial) := by
  have hbind : ∀ env repoPath (s' : ManagerState) e,
      (loadAfterBind env repoPath s').2 = .error e →
      (loadAfterBind env repoPath s').1.currentTutorial = s'.currentTutorial := by
    intro env repoPath s' e
    cases hcp : env.configPath with
    | none =>
      simp only [loadAfterBind, hcp]
      intro _
      trivial
    | some p =>
      cases hpr : env.parseResult with
      | error e' =>
        simp only [loadAfterBind, hcp, hpr]
        intro _
        trivial
      | ok config =>
        cases hv : validateGitRefs env.refExists config with
        | error e' =>
          simp only [loadAfterBind, hcp, hpr, hv]
          intro _
          trivial
        | ok u =>
          simp only [loadAfterBind, hcp, hpr, hv]
          intro he
          exact absurd he (by simp)
  constructor
  · intro source env s e
    unfold loadTutorial
    by_cases hr : isRemoteUrl source = true
    · rw [if_pos hr]
      cases env.cloneResult with
      | error e' => intro _; rfl
      | ok u => exact hbind env env.cloneDir _ e
    · rw [if_neg hr]
      exact hbind env source _ e
  · intro source env s config hparse hclone hcfg hbad
    have hval : validateGitRefs env.refExists config =
        .error (.generic ("以下步骤的 Git 引用无效:\n" ++ String.intercalate "\n"
          ((config.steps.filter (fun step => !(env.refExists step.gitRef))).map
            (fun step => step.id ++ ": " ++ step.gitRef)))) := by
      unfold validateGitRefs
      rw [if_pos]
      rw [List.length_map]
      exact List.length_pos.2 hbad
    have hload : ∀ repoPath (s' : ManagerState),
        loadAfterBind env repoPath s' =
          (s', .error (.generic ("以下步骤的 Git 引用无效:\n" ++ String.intercalate "\n"
            ((config.steps.filter (fun step => !(env.refExists step.gitRef))).map
              (fun step => step.id ++ ": " ++ step.gitRef))))) := by
      intro repoPath s'
      cases hcp : env.configPath with
      | none => rw [hcp] at hcfg; exact absurd hcfg (by simp)
      | some p => simp only [loadAfterBind, hcp, hparse, hval]
    unfold loadTutorial
    by_cases hr : isRemoteUrl source = true
    · rw [if_pos hr]
      rcases hclone with hcl | hcl
      · rw [hr] at hcl; exact absurd hcl (by simp)
      · rw [hcl, hload env.cloneDir]
        exact ⟨rfl, rfl⟩
    · rw [if_neg hr, hload source]
      exact ⟨rfl, rfl⟩

/-- Witness for `loadTutorial_validation`: a local load whose single step
has an unresolvable ref fails with the message naming that step, leaving
no tutorial current. -/
theorem loadTutorial_validation_witness :
    (loadTutorial "/repo"
      { cloneDir := "/tmp/t", cloneResult := .ok (), configPath := some "/repo/tutorial.yaml"
        parseResult := .ok
          { name := "T", description := "d", version := "1"
            steps := [{ id := "s1", title := "A", description := none
                        gitRef := "badref", parentId := none, explanation := "a.md" }] }
        refExists := fun r => r = "goodref" }
      { currentTutorial := none, gitHead := "h", gitDirty := false
        gitStashes := 0, gitBound := none, checkoutCount := 0 }).2 =
      .error (.generic "以下步骤的 Git 引用无效:\ns1: badref") ∧
    (loadTutorial "/repo"
      { cloneDir := "/tmp/t", cloneResult := .ok (), configPath := some "/repo/tutorial.yaml"
        parseResult := .ok
          { name := "T", description := "d", version := "1"
            steps := [{ id := "s1", title := "A", description := none
                        gitRef := "badref", parentId := none, explanation := "a.md" }] }
        refExists := fun r => r = "goodref" }
      { currentTutorial := none, gitHead := "h", gitDirty := false
        gitStashes := 0, gitBound := none, checkoutCount := 0 }).1.currentTutorial = none := by
  have h := loadTutorial_validation.2 "/repo"
    { cloneDir := "/tmp/t", cloneResult := .ok (), configPath := some "/repo/tutorial.yaml"
      parseResult := .ok
        { name := "T", description := "d", version := "1"
          steps := [{ id := "s1", title := "A", description := none
                      gitRef := "badref", parentId := none, explanation := "a.md" }] }
      refExists := fun r => r = "goodref" }
    { currentTutorial := none, gitHead := "h", gitDirty := false
      gitStashes := 0, gitBound := none, checkoutCount := 0 }
    { name := "T", description := "d", version := "1"
      steps := [{ id := "s1", title := "A", description := none
                  gitRef := "badref", parentId := none, explanation := "a.md" }] }
    rfl (Or.inl (by decide)) rfl (by decide)
  exact ⟨h.1, h.2⟩

end Tutorial
